import Mathlib

/-!
# Verification of the chain-utils library

Shallow embedding of the `chain-utils` TypeScript library: the SLIP-44 chain
registry (`src/chain/slip44.ts`), the EVM and Tron address converters
(`src/address/evm.ts`, `src/address/tron.ts`) and the 36-byte Universal
Address codec (`src/address/universal-address.ts`), together with proofs of
the library's round-trip, invariant and error-handling properties.

Modelling conventions:
* JavaScript strings are modelled as lists of character code points
  (`JStr := List Nat`); all address syntax in the library is ASCII.
* `Uint8Array` values are `List Nat`; JavaScript guarantees the elements are
  below 256, which appears here either by construction or as an explicit
  hypothesis.
* JavaScript numbers are `Nat` (all numeric values in the library are
  non-negative integers); 32-bit wrapping of the bitwise operators is made
  explicit with `% 2 ^ 32`.
* `throw` is modelled with `Except Err`; `null` with `Option`.
-/

/-- Structural decidable equality for `Except` (kernel-friendly: the
positive case transports by `congrArg` instead of the derived recursor). -/
instance exceptDecEq {ε α : Type} [DecidableEq ε] [DecidableEq α] :
    DecidableEq (Except ε α)
  | .error a, .error b =>
    match decEq a b with
    | .isTrue h => .isTrue (congrArg Except.error h)
    | .isFalse h => .isFalse (fun hc => h (Except.error.inj hc))
  | .error _, .ok _ => .isFalse (fun hc => Except.noConfusion hc)
  | .ok _, .error _ => .isFalse (fun hc => Except.noConfusion hc)
  | .ok a, .ok b =>
    match decEq a b with
    | .isTrue h => .isTrue (congrArg Except.ok h)
    | .isFalse h => .isFalse (fun hc => h (Except.ok.inj hc))

namespace ChainUtils

/-- JavaScript strings as lists of character code points. -/
abbrev JStr := List Nat

/-- Code points of a Lean string literal (used to write `JStr` literals). -/
def strChars (s : String) : JStr := s.data.map Char.toNat

/-- `String.prototype.toLowerCase` on one code point (ASCII range; every
string the library manipulates is ASCII). -/
def jsLowerChar (n : Nat) : Nat := if 65 ≤ n ∧ n ≤ 90 then n + 32 else n

/-- `String.prototype.toLowerCase`. -/
def jsToLower (s : JStr) : JStr := s.map jsLowerChar

/-- `str.replace(/^0x/, '')`: drop one literal `0x` prefix (`0` = 48,
`x` = 120) if present. -/
def strip0x (s : JStr) : JStr :=
  match s with
  | 48 :: 120 :: rest => rest
  | _ => s

/-- Whitespace skipped by `parseInt` (ASCII white space and line
terminators). -/
def jsIsWhite (n : Nat) : Bool :=
  decide (n = 9) || decide (n = 10) || decide (n = 11) || decide (n = 12) ||
    decide (n = 13) || decide (n = 32)

/-- The character class `[0-9a-fA-F]`. -/
def isHexDigit (n : Nat) : Bool :=
  (decide (48 ≤ n) && decide (n ≤ 57)) ||
  (decide (97 ≤ n) && decide (n ≤ 102)) ||
  (decide (65 ≤ n) && decide (n ≤ 70))

/-- Numeric value of a hex digit (0 on other inputs). -/
def hexVal (n : Nat) : Nat :=
  if 48 ≤ n ∧ n ≤ 57 then n - 48
  else if 97 ≤ n ∧ n ≤ 102 then n - 87
  else if 65 ≤ n ∧ n ≤ 70 then n - 55
  else 0

/-- With radix 16, `parseInt` skips one leading `0x`/`0X`. -/
def stripHexPrefix (l : JStr) : JStr :=
  match l with
  | 48 :: 120 :: rest => rest
  | 48 :: 88 :: rest => rest
  | _ => l

/-- The unsigned core of `parseInt(·, 16)`: longest hex-digit prefix after
the optional `0x`; `none` models `NaN`. -/
def jsParseIntHexCore (l : JStr) : Option Nat :=
  let ds := (stripHexPrefix l).takeWhile isHexDigit
  if ds.isEmpty then none
  else some (ds.foldl (fun a c => a * 16 + hexVal c) 0)

/-- `parseInt(s, 16)`: trim leading whitespace, optional sign, longest hex
prefix; `none` models `NaN`. -/
def jsParseIntHex (l : JStr) : Option Int :=
  match l.dropWhile jsIsWhite with
  | 43 :: r => (jsParseIntHexCore r).map (fun n => (n : Int))
  | 45 :: r => (jsParseIntHexCore r).map (fun n => -(n : Int))
  | r => (jsParseIntHexCore r).map (fun n => (n : Int))

/-- Storing a `parseInt` result into a `Uint8Array` slot (`ToUint8`):
`NaN` becomes 0, other values are taken mod 256. -/
def toUint8 (o : Option Int) : Nat :=
  match o with
  | none => 0
  | some i => (i % 256).toNat

/-- One byte of the converters' parse loops:
`parseInt(str.substring(2*i, 2*i + 2), 16)` stored into a `Uint8Array`. -/
def jsParseHexByte (c1 c2 : Nat) : Nat := toUint8 (jsParseIntHex [c1, c2])

/-- The parse loops of `evm.ts` `toBytes` and `universal-address.ts`
`hexToBytes`: consecutive 2-character substrings, one byte each. -/
def pairBytes : JStr → List Nat
  | c1 :: c2 :: rest => jsParseHexByte c1 c2 :: pairBytes rest
  | _ => []

/-- Lowercase hex digit for a value below 16. -/
def hexDigitChar (d : Nat) : Nat := if d < 10 then 48 + d else 87 + d

/-- Structural helper for `natToHex` (`fuel ≥ n` makes the result
fuel-independent; repeated division by 16 reaches 0 within `n` steps). -/
def natToHexGo : (fuel n : Nat) → List Nat
  | 0, n => [hexDigitChar n]
  | fuel + 1, n =>
    if n < 16 then [hexDigitChar n]
    else natToHexGo fuel (n / 16) ++ [hexDigitChar (n % 16)]

/-- `Number.prototype.toString(16)` for naturals (lowercase). -/
def natToHex (n : Nat) : List Nat := natToHexGo n n

/-- `b.toString(16).padStart(2, '0')`. -/
def byteToHex (b : Nat) : List Nat :=
  let h := natToHex b
  if h.length < 2 then 48 :: h else h

/-- Error kinds thrown by the library (`throw new Error(...)` sites). -/
inductive Err where
  | invalidFormat
  | invalidLength
  | unsupportedChain
  | unknownChain
  | unsupportedChainType
  | invalidBase58
deriving DecidableEq, Repr

/-! ## EVM converter (`src/address/evm.ts`) -/

/-- `EVMAddressConverter.toBytes`: lowercase, strip one `0x`, require 40
remaining characters, parse 20 bytes, left-pad with 12 zero bytes. -/
def evmToBytes (s : JStr) : Except Err (List Nat) :=
  let cleaned := strip0x (jsToLower s)
  if cleaned.length = 40 then .ok (List.replicate 12 0 ++ pairBytes cleaned)
  else .error .invalidFormat

/-- `EVMAddressConverter.fromBytes`: require 32 bytes, hex-encode the last
20 bytes, prefix `0x`. -/
def evmFromBytes (bs : List Nat) : Except Err JStr :=
  if bs.length = 32 then .ok (48 :: 120 :: ((bs.drop 12).map byteToHex).flatten)
  else .error .invalidLength

/-- `EVMAddressConverter.isValid`: the regex `/^0x[0-9a-fA-F]{40}$/`. -/
def evmIsValid (s : JStr) : Bool :=
  match s with
  | 48 :: 120 :: rest => decide (rest.length = 40) && rest.all isHexDigit
  | _ => false

/-! ## Tron converter (`src/address/tron.ts`) -/

/-- The Bitcoin-style base-58 alphabet of `TronAddressConverter`. -/
def BASE58_ALPHABET : List Nat :=
  strChars "123456789ABCDEFGHJKLMNPQRSTUVWXYZabcdefghijkmnopqrstuvwxyz"

/-- `BASE58_ALPHABET.indexOf(char)`; `none` models the thrown
`Invalid Base58 character`. -/
def b58Index (c : Nat) : Option Nat := BASE58_ALPHABET.findIdx? (fun x => decide (x = c))

/-- `BASE58_ALPHABET[d]` (fallback 0 is never reached for digits below 58). -/
def b58Char (d : Nat) : Nat := BASE58_ALPHABET.getD d 0

/-- Structural helper for `natToBaseLE` (`fuel ≥ n` makes the result
fuel-independent). -/
def natToBaseLEGo (β : Nat) : (fuel n : Nat) → List Nat
  | 0, _ => []
  | fuel + 1, n =>
    if 2 ≤ β ∧ 0 < n then n % β :: natToBaseLEGo β fuel (n / β) else []

/-- Minimal little-endian digit expansion in base `β`: the `while (value > 0)
push` loops of `base58Decode` (β = 256) and `base58Encode` (β = 58). -/
def natToBaseLE (β n : Nat) : List Nat := natToBaseLEGo β n n

/-- One step of the converters' big-integer loops: multiply the little-endian
base-`β` digit list by `mult` and add `v`, propagating carries, then push the
remaining carry (`base58Decode`: β = 256, mult = 58; `base58Encode`: β = 58,
mult = 256). -/
def pushDigit (β mult : Nat) : List Nat → Nat → List Nat
  | [], v => natToBaseLE β v
  | d :: ds, v => (v + d * mult) % β :: pushDigit β mult ds ((v + d * mult) / β)

/-- Number of leading occurrences of `x` (the leading `'1'` / leading zero
loops of the two codecs). -/
def leadCount (x : Nat) (l : List Nat) : Nat := (l.takeWhile (fun y => decide (y = x))).length

/-- The character loop of `TronAddressConverter.base58Decode`, producing the
little-endian byte list; `none` models the thrown error on a character
outside the alphabet. -/
def base58DecodeLoop (s : JStr) : Option (List Nat) :=
  s.foldlM (fun bytes c => (b58Index c).map (pushDigit 256 58 bytes)) []

/-- `TronAddressConverter.base58Decode`: main loop, then one zero byte per
leading `'1'` (code 49), then reverse to big-endian. -/
def base58Decode (s : JStr) : Except Err (List Nat) :=
  match base58DecodeLoop s with
  | none => .error .invalidBase58
  | some bytes => .ok ((bytes ++ List.replicate (leadCount 49 s) 0).reverse)

/-- `TronAddressConverter.base58Encode`: byte loop building little-endian
base-58 digits, then one zero digit per leading zero byte, then reverse and
map through the alphabet. -/
def base58Encode (bs : List Nat) : JStr :=
  let digits := bs.foldl (fun ds b => pushDigit 58 256 ds b) []
  ((digits ++ List.replicate (leadCount 0 bs) 0).reverse).map b58Char

/-- The 32-bit state update of `calculateChecksum`:
`hash = ((hash << 5) - hash + byte) | 0`, whose bit pattern is
`(31 * hash + byte) mod 2^32`. -/
def tronChecksumState (payload : List Nat) : Nat :=
  payload.foldl (fun h b => (31 * h + b) % 2 ^ 32) 0

/-- `TronAddressConverter.calculateChecksum`: 4 big-endian bytes of the
rolling-hash state. -/
def tronChecksum (payload : List Nat) : List Nat :=
  let h := tronChecksumState payload
  [h / 2 ^ 24 % 256, h / 2 ^ 16 % 256, h / 2 ^ 8 % 256, h % 256]

/-- The regex `/^T[1-9A-HJ-NP-Za-km-z]{33}$/` character class. -/
def b58CharSet (n : Nat) : Bool :=
  (decide (49 ≤ n) && decide (n ≤ 57)) ||
  (decide (65 ≤ n) && decide (n ≤ 72)) ||
  (decide (74 ≤ n) && decide (n ≤ 78)) ||
  (decide (80 ≤ n) && decide (n ≤ 90)) ||
  (decide (97 ≤ n) && decide (n ≤ 107)) ||
  (decide (109 ≤ n) && decide (n ≤ 122))

/-- The regex `/^T[1-9A-HJ-NP-Za-km-z]{33}$/` (`T` = 84). -/
def tronRegex (s : JStr) : Bool :=
  match s with
  | c :: rest => decide (c = 84) && decide (rest.length = 33) && rest.all b58CharSet
  | [] => false

/-- `TronAddressConverter.isValid`: regex, then decode (false on a decode
error), length-25 check, and checksum comparison over the first 21 bytes. -/
def tronIsValid (s : JStr) : Bool :=
  if tronRegex s then
    match base58Decode s with
    | .error _ => false
    | .ok decoded =>
      decide (decoded.length = 25) &&
        decide (decoded.drop 21 = tronChecksum (decoded.take 21))
  else false

/-- `TronAddressConverter.toBytes`: validate, decode, require 25 bytes, take
bytes 1–20 (drop prefix byte and checksum), left-pad with 12 zero bytes. -/
def tronToBytes (s : JStr) : Except Err (List Nat) :=
  if tronIsValid s then
    match base58Decode s with
    | .error e => .error e
    | .ok decoded =>
      if decoded.length = 25 then
        .ok (List.replicate 12 0 ++ (decoded.drop 1).take 20)
      else .error .invalidLength
  else .error .invalidFormat

/-- `TronAddressConverter.fromBytes`: require 32 bytes, take the last 20,
prepend the mainnet prefix byte `0x41`, append the checksum of the prefixed
payload, base-58 encode. -/
def tronFromBytes (bs : List Nat) : Except Err JStr :=
  if bs.length = 32 then
    .ok (base58Encode ((0x41 :: bs.drop 12) ++ tronChecksum (0x41 :: bs.drop 12)))
  else .error .invalidLength

/-! ## Data model (`src/types/index.ts`) -/

/-- The `ChainType` enumeration. -/
inductive ChainType where
  | evm
  | tron
  | solana
  | cosmos
deriving DecidableEq, Repr

/-- Native chain identifiers are numbers or strings
(`nativeChainId: number | string`). -/
inductive ChainId where
  | num (n : Nat)
  | str (s : JStr)
deriving DecidableEq, Repr

/-- The `ChainInfo` registry record. -/
structure ChainInfo where
  nativeChainId : ChainId
  slip44 : Nat
  name : JStr
  chainType : ChainType
  symbol : JStr
  isTestnet : Option Bool := none
deriving DecidableEq, Repr

/-- Structural helper for `natToDecimal` (`fuel ≥ n` makes the result
fuel-independent). -/
def natToDecimalGo : (fuel n : Nat) → JStr
  | 0, n => [48 + n]
  | fuel + 1, n =>
    if n < 10 then [48 + n]
    else natToDecimalGo fuel (n / 10) ++ [48 + n % 10]

/-- `String(nativeChainId)`: numbers render in decimal. -/
def natToDecimal (n : Nat) : JStr := natToDecimalGo n n

/-- The string key under which a native chain ID is stored in the reverse
map (`String(info.nativeChainId)`). -/
def chainIdKey : ChainId → JStr
  | .num n => natToDecimal n
  | .str s => s

/-! ## Chain registry (`src/chain/slip44.ts`)

The two module-level maps are modelled as association lists carried in an
explicit `RegistryState`; `registerChain` mutates them in place, which the
model renders as a state-passing update. -/

/-- Key lookup in an association list (`Map.prototype.get` /
object property read). -/
def assocGet [DecidableEq κ] (k : κ) (l : List (κ × α)) : Option α :=
  (l.find? (fun p => decide (p.1 = k))).map (·.2)

/-- Key update in an association list: overwrite in place when the key
exists, append otherwise (`Map.prototype.set` / object property write). -/
def assocUpdate [DecidableEq κ] (k : κ) (v : α) : List (κ × α) → List (κ × α)
  | [] => [(k, v)]
  | (k', v') :: rest =>
    if k' = k then (k, v) :: rest else (k', v') :: assocUpdate k v rest

/-- Entry order on the forward map used by JavaScript object enumeration:
ascending numeric key. -/
def entryLE (p q : Nat × ChainInfo) : Prop := p.1 ≤ q.1

instance : DecidableRel entryLE := fun p q => Nat.decLe p.1 q.1

instance : IsTotal (Nat × ChainInfo) entryLE := ⟨fun p q => Nat.le_total p.1 q.1⟩

instance : IsTrans (Nat × ChainInfo) entryLE := ⟨fun _ _ _ => Nat.le_trans⟩

/-- JavaScript `Object.entries`/`Object.values` enumeration order for an
object with numeric keys: array-index keys (below 2^32 − 1) in ascending
numeric order first, then the remaining keys in insertion order. -/
def jsObjectEntries (m : List (Nat × ChainInfo)) : List (Nat × ChainInfo) :=
  List.insertionSort entryLE (m.filter (fun p => decide (p.1 < 4294967295))) ++
    m.filter (fun p => !decide (p.1 < 4294967295))

/-- The registry's mutable state: `SLIP44_CHAIN_MAP` (keyed by SLIP-44) and
`NATIVE_TO_SLIP44_MAP` (keyed by stringified native chain ID). -/
structure RegistryState where
  forwardMap : List (Nat × ChainInfo)
  reverseMap : List (JStr × Nat)
deriving DecidableEq, Repr

/-- Seed record for Ethereum (SLIP-44 60 ↔ chain ID 1). -/
def ethereumSeedInfo : ChainInfo :=
  ⟨.num 1, 60, strChars "Ethereum Mainnet", .evm, strChars "ETH", none⟩

/-- Seed record for Tron (SLIP-44 195 ↔ chain ID 195). -/
def tronSeedInfo : ChainInfo :=
  ⟨.num 195, 195, strChars "Tron Mainnet", .tron, strChars "TRX", none⟩

/-- Seed record for BNB Smart Chain (SLIP-44 714 ↔ chain ID 56). -/
def bscSeedInfo : ChainInfo :=
  ⟨.num 56, 714, strChars "BNB Smart Chain", .evm, strChars "BNB", none⟩

/-- Seed record for Polygon (SLIP-44 966 ↔ chain ID 137). -/
def polygonSeedInfo : ChainInfo :=
  ⟨.num 137, 966, strChars "Polygon Mainnet", .evm, strChars "MATIC", none⟩

/-- Seed record for Solana (SLIP-44 501 ↔ the string ID `mainnet-beta`). -/
def solanaSeedInfo : ChainInfo :=
  ⟨.str (strChars "mainnet-beta"), 501, strChars "Solana Mainnet", .solana,
    strChars "SOL", none⟩

/-- Seed record for Avalanche C-Chain (SLIP-44 9000 ↔ chain ID 43114). -/
def avalancheSeedInfo : ChainInfo :=
  ⟨.num 43114, 9000, strChars "Avalanche C-Chain", .evm, strChars "AVAX", none⟩

/-- Seed record for Arbitrum One (custom SLIP-44 1042161 ↔ chain ID 42161). -/
def arbitrumSeedInfo : ChainInfo :=
  ⟨.num 42161, 1042161, strChars "Arbitrum One", .evm, strChars "ETH", none⟩

/-- Seed record for Optimism (custom SLIP-44 1000010 ↔ chain ID 10). -/
def optimismSeedInfo : ChainInfo :=
  ⟨.num 10, 1000010, strChars "Optimism", .evm, strChars "ETH", none⟩

/-- Seed record for Base (custom SLIP-44 1008453 ↔ chain ID 8453). -/
def baseSeedInfo : ChainInfo :=
  ⟨.num 8453, 1008453, strChars "Base", .evm, strChars "ETH", none⟩

/-- Seed record for zkSync Era (custom SLIP-44 1000324 ↔ chain ID 324). -/
def zksyncSeedInfo : ChainInfo :=
  ⟨.num 324, 1000324, strChars "zkSync Era", .evm, strChars "ETH", none⟩

/-- The static seed table `SLIP44_CHAIN_MAP`, in source (insertion) order. -/
def SLIP44_SEED : List (Nat × ChainInfo) :=
  [(60, ethereumSeedInfo), (195, tronSeedInfo), (714, bscSeedInfo),
   (966, polygonSeedInfo), (501, solanaSeedInfo), (9000, avalancheSeedInfo),
   (1042161, arbitrumSeedInfo), (1000010, optimismSeedInfo),
   (1008453, baseSeedInfo), (1000324, zksyncSeedInfo)]

/-- `NATIVE_TO_SLIP44_MAP` as built at module load:
`new Map(Object.entries(SLIP44_CHAIN_MAP).map(...))`, i.e. the entries in
object-enumeration order, later entries overwriting earlier ones. -/
def NATIVE_TO_SLIP44_SEED : List (JStr × Nat) :=
  (jsObjectEntries SLIP44_SEED).foldl
    (fun m p => assocUpdate (chainIdKey p.2.nativeChainId) p.1 m) []

/-- Registry state right after module load. -/
def seedState : RegistryState := ⟨SLIP44_SEED, NATIVE_TO_SLIP44_SEED⟩

/-- `nativeToSlip44`. -/
def nativeToSlip44 (σ : RegistryState) (c : ChainId) : Option Nat :=
  assocGet (chainIdKey c) σ.reverseMap

/-- `slip44ToNative`. -/
def slip44ToNative (σ : RegistryState) (s : Nat) : Option ChainId :=
  (assocGet s σ.forwardMap).map (·.nativeChainId)

/-- `getChainInfoBySlip44`. -/
def getChainInfoBySlip44 (σ : RegistryState) (s : Nat) : Option ChainInfo :=
  assocGet s σ.forwardMap

/-- `getChainInfoByNative`: `slip44 ? getChainInfoBySlip44(slip44) : null` —
note the truthiness test, under which a looked-up SLIP-44 of 0 falls to the
`null` branch. -/
def getChainInfoByNative (σ : RegistryState) (c : ChainId) : Option ChainInfo :=
  match nativeToSlip44 σ c with
  | none => none
  | some s => if s = 0 then none else getChainInfoBySlip44 σ s

/-- `getChainType`. -/
def getChainType (σ : RegistryState) (s : Nat) : Option ChainType :=
  (assocGet s σ.forwardMap).map (·.chainType)

/-- `registerChain`: overwrite the forward map at `info.slip44` and the
reverse map at `String(info.nativeChainId)`. -/
def registerChain (σ : RegistryState) (info : ChainInfo) : RegistryState :=
  ⟨assocUpdate info.slip44 info σ.forwardMap,
   assocUpdate (chainIdKey info.nativeChainId) info.slip44 σ.reverseMap⟩

/-- `getAllSupportedChains`: `Object.values(SLIP44_CHAIN_MAP)`. -/
def getAllSupportedChains (σ : RegistryState) : List ChainInfo :=
  (jsObjectEntries σ.forwardMap).map (·.2)

/-- Registry states reachable from the seed table by `registerChain`. -/
inductive Reachable : RegistryState → Prop where
  | seed : Reachable seedState
  | step {σ : RegistryState} (info : ChainInfo) :
      Reachable σ → Reachable (registerChain σ info)

/-! ## Universal Address codec (`src/address/universal-address.ts`) -/

/-- The 4 big-endian bytes of `slip44` written by `encodeUniversalAddress`
(`>>>` wraps at 2^32, so each byte is a base-256 digit of `slip44`). -/
def slip44Bytes (s : Nat) : List Nat :=
  [s / 2 ^ 24 % 256, s / 2 ^ 16 % 256, s / 2 ^ 8 % 256, s % 256]

/-- The SLIP-44 field read by `decodeUniversalAddress` from the first four
bytes: `(b0 << 24 | b1 << 16 | b2 << 8 | b3) >>> 0`. The operands are
`Uint8Array` elements, hence below 256. -/
def uaSlip44 (bs : List Nat) : Nat :=
  (bs.getD 0 0 * 2 ^ 24 + bs.getD 1 0 * 2 ^ 16 + bs.getD 2 0 * 2 ^ 8 + bs.getD 3 0) %
    2 ^ 32

/-- `encodeUniversalAddress`: resolve the chain type, dispatch to the
converter, prepend the 4 SLIP-44 bytes. -/
def encodeUniversalAddress (σ : RegistryState) (s : Nat) (nativeAddress : JStr) :
    Except Err (List Nat) :=
  match getChainType σ s with
  | none => .error .unsupportedChain
  | some .evm => (evmToBytes nativeAddress).map (fun ab => slip44Bytes s ++ ab)
  | some .tron => (tronToBytes nativeAddress).map (fun ab => slip44Bytes s ++ ab)
  | some .solana => .error .unsupportedChainType
  | some .cosmos => .error .unsupportedChainType

/-- The record returned by `decodeUniversalAddress`. -/
structure DecodedUA where
  slip44 : Nat
  nativeAddress : JStr
  nativeChainId : Option ChainId
deriving DecidableEq, Repr

/-- `decodeUniversalAddress`: require 36 bytes, read the SLIP-44 field,
resolve the chain type, dispatch `fromBytes` on bytes 4–35, reverse-look-up
the native chain ID. -/
def decodeUniversalAddress (σ : RegistryState) (bs : List Nat) : Except Err DecodedUA :=
  if bs.length = 36 then
    match getChainType σ (uaSlip44 bs) with
    | none => .error .unknownChain
    | some .evm =>
      (evmFromBytes ((bs.drop 4).take 32)).map
        (fun na => ⟨uaSlip44 bs, na, slip44ToNative σ (uaSlip44 bs)⟩)
    | some .tron =>
      (tronFromBytes ((bs.drop 4).take 32)).map
        (fun na => ⟨uaSlip44 bs, na, slip44ToNative σ (uaSlip44 bs)⟩)
    | some .solana => .error .unsupportedChainType
    | some .cosmos => .error .unsupportedChainType
  else .error .invalidLength

/-- `bytesToHex`: require 36 bytes, `0x` plus two lowercase hex characters
per byte. -/
def bytesToHex (bs : List Nat) : Except Err JStr :=
  if bs.length = 36 then .ok (48 :: 120 :: (bs.map byteToHex).flatten)
  else .error .invalidLength

/-- `hexToBytes`: strip one `0x`, require 72 remaining characters, parse 36
bytes (`parseInt` on character pairs — no hex-digit validation). -/
def hexToBytes (s : JStr) : Except Err (List Nat) :=
  let cleaned := strip0x s
  if cleaned.length = 72 then .ok (pairBytes cleaned)
  else .error .invalidLength

/-- `createUniversalAddress`: reverse lookup (`=== null` check, so a SLIP-44
of 0 passes), then encode. -/
def createUniversalAddress (σ : RegistryState) (c : ChainId) (nativeAddress : JStr) :
    Except Err (List Nat) :=
  match nativeToSlip44 σ c with
  | none => .error .unsupportedChain
  | some s => encodeUniversalAddress σ s nativeAddress

/-- The `bytes | hex` argument union of `isValidUniversalAddress`. -/
inductive UAInput where
  | bytes (bs : List Nat)
  | hex (s : JStr)

/-- `isValidUniversalAddress`: hex input goes through `hexToBytes`, then
`decodeUniversalAddress`; any error becomes `false`. -/
def isValidUniversalAddress (σ : RegistryState) : UAInput → Bool
  | .bytes bs =>
    match decodeUniversalAddress σ bs with
    | .ok _ => true
    | .error _ => false
  | .hex s =>
    match hexToBytes s with
    | .error _ => false
    | .ok bs =>
      match decodeUniversalAddress σ bs with
      | .ok _ => true
      | .error _ => false

/-! ## Positional number systems

The big-integer loops of `base58Decode`/`base58Encode` and the checksum
slices are governed by the value and canonicity of little-endian digit
expansions. -/

/-- Value of a little-endian digit list in base `β`. -/
def numBaseLE (β : Nat) (l : List Nat) : Nat :=
  l.foldr (fun d acc => d + β * acc) 0

/-- Value of a big-endian digit list in base `β` (the converters' byte order
after the final `reverse`). -/
def numBaseBE (β : Nat) (l : List Nat) : Nat :=
  l.foldl (fun acc d => acc * β + d) 0

/-- A canonical little-endian expansion: digits below the base and no
most-significant zero digit. -/
def canonLE (β : Nat) (l : List Nat) : Prop :=
  (∀ d ∈ l, d < β) ∧ l.getLast? ≠ some 0

theorem numBaseBE_reverse (β : Nat) (l : List Nat) :
    numBaseBE β l.reverse = numBaseLE β l := by
  induction l with
  | nil => rfl
  | cons d ds ih =>
    simp only [numBaseBE, List.reverse_cons, List.foldl_append, List.foldl_cons,
      List.foldl_nil, numBaseLE, List.foldr_cons]
    simp only [numBaseBE, numBaseLE] at ih
    rw [ih]; ring

theorem numBaseBE_eq_numBaseLE_reverse (β : Nat) (l : List Nat) :
    numBaseBE β l = numBaseLE β l.reverse := by
  rw [← numBaseBE_reverse β l.reverse, List.reverse_reverse]

theorem natToBaseLEGo_congr (β : Nat) :
    ∀ f₁ f₂ n, n ≤ f₁ → n ≤ f₂ → natToBaseLEGo β f₁ n = natToBaseLEGo β f₂ n := by
  intro f₁
  induction f₁ with
  | zero =>
    intro f₂ n h1 _
    interval_cases n
    cases f₂ with
    | zero => rfl
    | succ f => simp [natToBaseLEGo]
  | succ f ih =>
    intro f₂ n h1 h2
    cases f₂ with
    | zero =>
      interval_cases n
      simp [natToBaseLEGo]
    | succ f' =>
      simp only [natToBaseLEGo]
      by_cases hc : 2 ≤ β ∧ 0 < n
      · rw [if_pos hc, if_pos hc]
        have hlt : n / β < n := Nat.div_lt_self hc.2 (by omega)
        rw [ih f' (n / β) (by omega) (by omega)]
      · rw [if_neg hc, if_neg hc]

/-- Unfolding rule for `natToBaseLE`. -/
theorem natToBaseLE_eq (β n : Nat) (hβ : 2 ≤ β) :
    natToBaseLE β n = if 0 < n then n % β :: natToBaseLE β (n / β) else [] := by
  unfold natToBaseLE
  cases n with
  | zero => simp [natToBaseLEGo]
  | succ m =>
    simp only [natToBaseLEGo, if_pos (⟨hβ, Nat.succ_pos m⟩ : 2 ≤ β ∧ 0 < m + 1),
      if_pos (Nat.succ_pos m)]
    have hlt : (m + 1) / β < m + 1 := Nat.div_lt_self (Nat.succ_pos m) (by omega)
    rw [natToBaseLEGo_congr β m ((m + 1) / β) ((m + 1) / β) (by omega) le_rfl]

theorem natToBaseLE_zero (β : Nat) : natToBaseLE β 0 = [] := rfl

theorem numBaseLE_natToBaseLE (β : Nat) (hβ : 2 ≤ β) (n : Nat) :
    numBaseLE β (natToBaseLE β n) = n := by
  induction n using Nat.strong_induction_on with
  | _ n ih =>
    rw [natToBaseLE_eq β n hβ]
    by_cases h : 0 < n
    · rw [if_pos h]
      have hlt : n / β < n := Nat.div_lt_self h (by omega)
      simp only [numBaseLE, List.foldr_cons]
      have := ih (n / β) hlt
      simp only [numBaseLE] at this
      rw [this]
      exact Nat.mod_add_div n β
    · rw [if_neg h]
      simp only [numBaseLE, List.foldr_nil]
      omega

theorem canonLE_natToBaseLE (β : Nat) (hβ : 2 ≤ β) (n : Nat) :
    canonLE β (natToBaseLE β n) := by
  induction n using Nat.strong_induction_on with
  | _ n ih =>
    rw [natToBaseLE_eq β n hβ]
    by_cases h : 0 < n
    · rw [if_pos h]
      have hlt : n / β < n := Nat.div_lt_self h (by omega)
      obtain ⟨ihd, ihl⟩ := ih (n / β) hlt
      constructor
      · intro d hd
        rcases List.mem_cons.mp hd with h1 | h2
        · subst h1; exact Nat.mod_lt n (by omega)
        · exact ihd d h2
      · rcases hrec : natToBaseLE β (n / β) with _ | ⟨x, xs⟩
        · -- tail empty: n / β = 0, so n < β and the single digit is n ≠ 0
          have hdiv : n / β = 0 := by
            by_contra hne
            rw [natToBaseLE_eq β (n / β) hβ, if_pos (Nat.pos_of_ne_zero hne)] at hrec
            exact List.noConfusion hrec
          have hnβ : n < β := (Nat.div_eq_zero_iff (by omega)).mp hdiv
          simp only [List.getLast?_singleton, ne_eq, Option.some.injEq]
          rw [Nat.mod_eq_of_lt hnβ]
          omega
        · rw [hrec] at ihl
          rw [List.getLast?_cons_cons]
          exact ihl
    · rw [if_neg h]
      exact ⟨fun d hd => absurd hd (List.not_mem_nil d), by simp⟩

theorem numBaseLE_pos (β : Nat) (hβ : 1 ≤ β) (l : List Nat) (hne : l ≠ [])
    (hlast : l.getLast? ≠ some 0) : 0 < numBaseLE β l := by
  induction l with
  | nil => exact absurd rfl hne
  | cons d ds ih =>
    cases ds with
    | nil =>
      simp only [List.getLast?_singleton, ne_eq, Option.some.injEq] at hlast
      simp only [numBaseLE, List.foldr_cons, List.foldr_nil]
      omega
    | cons e es =>
      rw [List.getLast?_cons_cons] at hlast
      have := ih (by simp) hlast
      simp only [numBaseLE, List.foldr_cons] at this ⊢
      have : 0 < β * (e + β * List.foldr (fun d acc => d + β * acc) 0 es) :=
        Nat.mul_pos (by omega) this
      omega

theorem canonLE_tail {β d : Nat} {ds : List Nat} (h : canonLE β (d :: ds)) :
    canonLE β ds := by
  obtain ⟨helem, hlast⟩ := h
  refine ⟨fun x hx => helem x (List.mem_cons_of_mem d hx), ?_⟩
  cases ds with
  | nil => simp
  | cons e es => rw [List.getLast?_cons_cons] at hlast; exact hlast

theorem natToBaseLE_numBaseLE (β : Nat) (hβ : 2 ≤ β) (l : List Nat)
    (hc : canonLE β l) : natToBaseLE β (numBaseLE β l) = l := by
  induction l with
  | nil => rfl
  | cons d ds ih =>
    obtain ⟨helem, hlast⟩ := hc
    have hd : d < β := helem d (List.mem_cons_self d ds)
    have hcds : canonLE β ds := canonLE_tail ⟨helem, hlast⟩
    have hval : numBaseLE β (d :: ds) = d + β * numBaseLE β ds := rfl
    rw [hval, natToBaseLE_eq β _ hβ]
    by_cases hz : ds = []
    · subst hz
      simp only [numBaseLE, List.foldr_nil, Nat.mul_zero, Nat.add_zero]
      have hdpos : 0 < d := by
        simp only [List.getLast?_singleton, ne_eq, Option.some.injEq] at hlast
        omega
      rw [if_pos hdpos, Nat.mod_eq_of_lt hd, Nat.div_eq_of_lt hd]
      rfl
    · have hpos : 0 < numBaseLE β ds := by
        apply numBaseLE_pos β (by omega) ds hz
        cases ds with
        | nil => exact absurd rfl hz
        | cons e es => rw [List.getLast?_cons_cons] at hlast; exact hlast
      rw [if_pos (by positivity)]
      have hmod : (d + β * numBaseLE β ds) % β = d := by
        rw [Nat.add_mul_mod_self_left, Nat.mod_eq_of_lt hd]
      have hdiv : (d + β * numBaseLE β ds) / β = numBaseLE β ds := by
        rw [Nat.add_mul_div_left d _ (by omega), Nat.div_eq_of_lt hd, Nat.zero_add]
      rw [hmod, hdiv, ih hcds]

theorem pushDigit_value (β mult : Nat) (hβ : 2 ≤ β) (l : List Nat) (v : Nat) :
    numBaseLE β (pushDigit β mult l v) = v + mult * numBaseLE β l := by
  induction l generalizing v with
  | nil =>
    show numBaseLE β (natToBaseLE β v) = v + mult * numBaseLE β []
    rw [numBaseLE_natToBaseLE β hβ]
    simp [numBaseLE]
  | cons d ds ih =>
    simp only [pushDigit]
    have hstep : numBaseLE β ((v + d * mult) % β :: pushDigit β mult ds ((v + d * mult) / β)) =
        (v + d * mult) % β + β * numBaseLE β (pushDigit β mult ds ((v + d * mult) / β)) := rfl
    rw [hstep, ih]
    have hsplit : (v + d * mult) % β + β * ((v + d * mult) / β + mult * numBaseLE β ds) =
        ((v + d * mult) % β + β * ((v + d * mult) / β)) + β * (mult * numBaseLE β ds) := by
      ring
    rw [hsplit, Nat.mod_add_div (v + d * mult) β]
    have : numBaseLE β (d :: ds) = d + β * numBaseLE β ds := rfl
    rw [this]
    ring

theorem pushDigit_canon (β mult : Nat) (hβ : 2 ≤ β) (hm : 1 ≤ mult) (l : List Nat)
    (v : Nat) (hc : canonLE β l) : canonLE β (pushDigit β mult l v) := by
  induction l generalizing v with
  | nil => exact canonLE_natToBaseLE β hβ v
  | cons d ds ih =>
    obtain ⟨helem, hlast⟩ := hc
    have hrec := ih ((v + d * mult) / β) (canonLE_tail ⟨helem, hlast⟩)
    simp only [pushDigit]
    constructor
    · intro x hx
      rcases List.mem_cons.mp hx with h1 | h2
      · subst h1; exact Nat.mod_lt _ (by omega)
      · exact hrec.1 x h2
    · rcases hrest : pushDigit β mult ds ((v + d * mult) / β) with _ | ⟨y, ys⟩
      · -- the recursive push is empty: then ds = [] and the carry is 0
        have hds : ds = [] := by
          cases ds with
          | nil => rfl
          | cons e es => simp only [pushDigit] at hrest; exact List.noConfusion hrest
        subst hds
        simp only [pushDigit] at hrest
        have hcar : (v + d * mult) / β = 0 := by
          by_contra hne
          rw [natToBaseLE_eq β _ hβ, if_pos (Nat.pos_of_ne_zero hne)] at hrest
          exact List.noConfusion hrest
        have hdpos : 0 < d := by
          simp only [List.getLast?_singleton, ne_eq, Option.some.injEq] at hlast
          omega
        have hlt : v + d * mult < β := by
          have := Nat.div_eq_zero_iff (show 0 < β by omega) |>.mp hcar
          exact this
        simp only [List.getLast?_singleton, ne_eq, Option.some.injEq]
        rw [Nat.mod_eq_of_lt hlt]
        have : 1 ≤ d * mult := Nat.mul_pos hdpos hm
        omega
      · rw [hrest] at hrec
        rw [List.getLast?_cons_cons]
        exact hrec.2

/-- The loop steps of both converters compute a canonical expansion of the
accumulated big integer. -/
theorem pushDigit_natToBaseLE (β mult : Nat) (hβ : 2 ≤ β) (hm : 1 ≤ mult)
    (l : List Nat) (v : Nat) (hc : canonLE β l) :
    pushDigit β mult l v = natToBaseLE β (v + mult * numBaseLE β l) := by
  have h1 := pushDigit_value β mult hβ l v
  have h2 := pushDigit_canon β mult hβ hm l v hc
  calc pushDigit β mult l v
      = natToBaseLE β (numBaseLE β (pushDigit β mult l v)) :=
        (natToBaseLE_numBaseLE β hβ _ h2).symm
    _ = natToBaseLE β (v + mult * numBaseLE β l) := by rw [h1]

/-! ## Characterization of the base-58 codec -/

/-- Digit value of an alphabet character (0 on foreign characters; only used
beneath a membership hypothesis). -/
def b58DigitVal (c : Nat) : Nat := (b58Index c).getD 0

/-- The big integer accumulated by the `base58Decode` character loop. -/
def b58Val (s : JStr) : Nat := s.foldl (fun x c => x * 58 + b58DigitVal c) 0

theorem b58CharSet_lt (c : Nat) (h : b58CharSet c = true) : c < 123 := by
  simp only [b58CharSet, Bool.or_eq_true, Bool.and_eq_true, decide_eq_true_eq] at h
  omega

theorem b58CharSet_spec_bounded :
    ∀ c < 123, b58CharSet c = true →
      b58Index c = some (b58DigitVal c) ∧ b58DigitVal c < 58 ∧
        b58Char (b58DigitVal c) = c := by decide

theorem b58CharSet_spec (c : Nat) (h : b58CharSet c = true) :
    b58Index c = some (b58DigitVal c) ∧ b58DigitVal c < 58 ∧
      b58Char (b58DigitVal c) = c :=
  b58CharSet_spec_bounded c (b58CharSet_lt c h) h

theorem base58_decode_loop_eq :
    ∀ (s : JStr) (a : Nat), (∀ c ∈ s, b58CharSet c = true) →
      List.foldlM (fun bytes c => (b58Index c).map (pushDigit 256 58 bytes))
          (natToBaseLE 256 a) s =
        some (natToBaseLE 256 (s.foldl (fun x c => x * 58 + b58DigitVal c) a)) := by
  intro s
  induction s with
  | nil => intro a _; rfl
  | cons c rest ih =>
    intro a hall
    have hc := hall c (List.mem_cons_self c rest)
    obtain ⟨hidx, _, _⟩ := b58CharSet_spec c hc
    rw [List.foldlM_cons, hidx]
    simp only [Option.map_some', Option.bind_eq_bind, Option.some_bind']
    rw [pushDigit_natToBaseLE 256 58 (by omega) (by omega) _ _
      (canonLE_natToBaseLE 256 (by omega) a), numBaseLE_natToBaseLE 256 (by omega)]
    have harith : b58DigitVal c + 58 * a = a * 58 + b58DigitVal c := by ring
    rw [harith, ih (a * 58 + b58DigitVal c) (fun x hx => hall x (List.mem_cons_of_mem c hx))]
    rfl

theorem base58DecodeLoop_eq (s : JStr) (hall : ∀ c ∈ s, b58CharSet c = true) :
    base58DecodeLoop s = some (natToBaseLE 256 (b58Val s)) := by
  have h0 : ([] : List Nat) = natToBaseLE 256 0 := rfl
  unfold base58DecodeLoop
  rw [h0, base58_decode_loop_eq s 0 hall]
  rfl

theorem base58Decode_of_chars (s : JStr) (c0 : Nat) (rest : JStr)
    (hs : s = c0 :: rest) (hc0 : c0 ≠ 49) (hall : ∀ c ∈ s, b58CharSet c = true) :
    base58Decode s = .ok ((natToBaseLE 256 (b58Val s)).reverse) := by
  unfold base58Decode
  rw [base58DecodeLoop_eq s hall]
  have hlead : leadCount 49 s = 0 := by
    subst hs
    simp only [leadCount, List.takeWhile]
    rw [decide_eq_false (by omega)]
    rfl
  rw [hlead]
  simp only [List.replicate_zero, List.append_nil]

theorem base58_encode_loop_eq :
    ∀ (bs : List Nat) (a : Nat),
      List.foldl (fun ds b => pushDigit 58 256 ds b) (natToBaseLE 58 a) bs =
        natToBaseLE 58 (bs.foldl (fun x b => x * 256 + b) a) := by
  intro bs
  induction bs with
  | nil => intro a; rfl
  | cons b tl ih =>
    intro a
    rw [List.foldl_cons,
      pushDigit_natToBaseLE 58 256 (by omega) (by omega) _ _
        (canonLE_natToBaseLE 58 (by omega) a),
      numBaseLE_natToBaseLE 58 (by omega)]
    have harith : b + 256 * a = a * 256 + b := by ring
    rw [harith, ih (a * 256 + b), List.foldl_cons]

theorem base58Encode_of_head_ne_zero (bs : List Nat) (b0 : Nat) (tl : List Nat)
    (hbs : bs = b0 :: tl) (hb0 : b0 ≠ 0) :
    base58Encode bs = ((natToBaseLE 58 (numBaseBE 256 bs)).reverse).map b58Char := by
  unfold base58Encode
  have h0 : ([] : List Nat) = natToBaseLE 58 0 := rfl
  rw [h0, base58_encode_loop_eq bs 0]
  have hlead : leadCount 0 bs = 0 := by
    subst hbs
    simp only [leadCount, List.takeWhile]
    rw [decide_eq_false hb0]
    rfl
  rw [hlead]
  simp only [List.replicate_zero, List.append_nil]
  rfl

/-! ## Tron converter round trip -/

theorem b58Val_eq_numBaseBE (s : JStr) : b58Val s = numBaseBE 58 (s.map b58DigitVal) := by
  simp [b58Val, numBaseBE, List.foldl_map]

theorem tronRegex_spec (s : JStr) (h : tronRegex s = true) :
    ∃ rest, s = 84 :: rest ∧ rest.length = 33 ∧ ∀ c ∈ rest, b58CharSet c = true := by
  cases s with
  | nil => simp [tronRegex] at h
  | cons c rest =>
    simp only [tronRegex, Bool.and_eq_true, decide_eq_true_eq, List.all_eq_true] at h
    exact ⟨rest, by rw [h.1.1], h.1.2, h.2⟩

theorem tronIsValid_spec (s : JStr) (h : tronIsValid s = true) :
    tronRegex s = true ∧ ∃ d, base58Decode s = .ok d ∧ d.length = 25 ∧
      d.drop 21 = tronChecksum (d.take 21) := by
  unfold tronIsValid at h
  by_cases hr : tronRegex s = true
  · rw [if_pos hr] at h
    refine ⟨hr, ?_⟩
    cases hd : base58Decode s with
    | error e => rw [hd] at h; exact absurd h (by simp)
    | ok d =>
      rw [hd] at h
      simp only [Bool.and_eq_true, decide_eq_true_eq] at h
      exact ⟨d, rfl, h.1, h.2⟩
  · rw [if_neg hr] at h
    exact absurd h (by simp)

theorem tron_valid_chars (s : JStr) (h : tronRegex s = true) :
    ∀ c ∈ s, b58CharSet c = true := by
  obtain ⟨rest, hs, _, hall⟩ := tronRegex_spec s h
  subst hs
  intro c hc
  rcases List.mem_cons.mp hc with h1 | h2
  · subst h1; decide
  · exact hall c h2

/-- The decoded byte list of a syntactically valid Tron address is the
canonical big-endian expansion of the accumulated base-58 value. -/
theorem tron_decoded_eq (s : JStr) (h : tronRegex s = true) :
    base58Decode s = .ok ((natToBaseLE 256 (b58Val s)).reverse) := by
  obtain ⟨rest, hs, _, _⟩ := tronRegex_spec s h
  exact base58Decode_of_chars s 84 rest hs (by omega) (tron_valid_chars s h)

/-- Re-encoding the decoded bytes of a valid Tron address gives back the
address, provided its leading byte is nonzero. -/
theorem base58_encode_decode (s : JStr) (h : tronRegex s = true)
    (d : List Nat) (hd : base58Decode s = .ok d) (b0 : Nat) (tl : List Nat)
    (hsplit : d = b0 :: tl) (hb0 : b0 ≠ 0) : base58Encode d = s := by
  rw [tron_decoded_eq s h] at hd
  have hdval : d = (natToBaseLE 256 (b58Val s)).reverse := (Except.ok.inj hd.symm)
  rw [base58Encode_of_head_ne_zero d b0 tl hsplit hb0]
  have hnum : numBaseBE 256 d = b58Val s := by
    rw [hdval, numBaseBE_reverse, numBaseLE_natToBaseLE 256 (by omega)]
  rw [hnum]
  have hcanon : canonLE 58 ((s.map b58DigitVal).reverse) := by
    constructor
    · intro x hx
      rw [List.mem_reverse] at hx
      obtain ⟨c, hc, hcx⟩ := List.mem_map.mp hx
      rw [← hcx]
      exact (b58CharSet_spec c (tron_valid_chars s h c hc)).2.1
    · obtain ⟨rest, hs, _, _⟩ := tronRegex_spec s h
      rw [List.getLast?_reverse]
      subst hs
      simp only [List.map_cons, List.head?_cons, ne_eq, Option.some.injEq]
      decide
  have hval : b58Val s = numBaseLE 58 ((s.map b58DigitVal).reverse) := by
    rw [b58Val_eq_numBaseBE, numBaseBE_eq_numBaseLE_reverse]
  rw [hval, natToBaseLE_numBaseLE 58 (by omega) _ hcanon, List.reverse_reverse,
    List.map_map]
  have : ∀ c ∈ s, (b58Char ∘ b58DigitVal) c = id c := by
    intro c hc
    exact (b58CharSet_spec c (tron_valid_chars s h c hc)).2.2
  rw [List.map_congr_left this, List.map_id]

/-- Round trip of the Tron converter on valid addresses whose decoded prefix
byte is the mainnet prefix `0x41`. -/
theorem tron_roundtrip_aux (a : JStr) (d : List Nat) (hv : tronIsValid a = true)
    (hd : base58Decode a = .ok d) (hpre : d.head? = some 65) :
    tronToBytes a = .ok (List.replicate 12 0 ++ (d.drop 1).take 20) ∧
      tronFromBytes (List.replicate 12 0 ++ (d.drop 1).take 20) = .ok a := by
  obtain ⟨hr, d', hd', hlen0, hck0⟩ := tronIsValid_spec a hv
  have hdd : d' = d := by
    rw [hd] at hd'
    exact (Except.ok.inj hd').symm
  rw [hdd] at hlen0 hck0
  obtain ⟨b0, tl, hsplit⟩ : ∃ b0 tl, d = b0 :: tl := by
    cases d with
    | nil => exact absurd hpre (by simp)
    | cons x xs => exact ⟨x, xs, rfl⟩
  have hb0 : b0 = 65 := by
    rw [hsplit] at hpre
    simpa using hpre
  rw [hb0] at hsplit
  have htake : (d.drop 1).take 20 = tl.take 20 := by rw [hsplit]; rfl
  have htlen : tl.length = 24 := by
    rw [hsplit] at hlen0
    simpa using hlen0
  constructor
  · simp [tronToBytes, hv, hd, hlen0]
  · unfold tronFromBytes
    have hlen32 : (List.replicate 12 0 ++ (d.drop 1).take 20).length = 32 := by
      rw [htake]
      simp [htlen]
    rw [if_pos hlen32]
    have hdrop : (List.replicate 12 0 ++ (d.drop 1).take 20).drop 12 = tl.take 20 := by
      rw [htake]; rfl
    rw [hdrop]
    have hprefixed : (65 : Nat) :: tl.take 20 = d.take 21 := by
      rw [hsplit, List.take_succ_cons]
    rw [show (0x41 : Nat) = 65 from rfl, hprefixed, ← hck0, List.take_append_drop]
    rw [base58_encode_decode a hr d hd 65 tl hsplit (by omega)]

/-! ## Hex parsing and printing -/

theorem toUint8_lt (o : Option Int) : toUint8 o < 256 := by
  cases o with
  | none => simp [toUint8]
  | some i =>
    simp only [toUint8]
    have h1 : 0 ≤ i % 256 := Int.emod_nonneg i (by norm_num)
    have h2 : i % 256 < 256 := Int.emod_lt_of_pos i (by norm_num)
    omega

theorem isHexDigit_lt (c : Nat) (h : isHexDigit c = true) : c < 103 := by
  simp only [isHexDigit, Bool.or_eq_true, Bool.and_eq_true, decide_eq_true_eq] at h
  omega

set_option maxRecDepth 40000 in
theorem hex_pair_spec_bounded :
    ∀ c1 < 103, ∀ c2 < 103, isHexDigit c1 = true → isHexDigit c2 = true →
      jsParseHexByte c1 c2 = hexVal c1 * 16 + hexVal c2 ∧
        byteToHex (hexVal c1 * 16 + hexVal c2) = [jsLowerChar c1, jsLowerChar c2] := by
  decide

theorem hex_pair_spec (c1 c2 : Nat) (h1 : isHexDigit c1 = true)
    (h2 : isHexDigit c2 = true) :
    jsParseHexByte c1 c2 = hexVal c1 * 16 + hexVal c2 ∧
      byteToHex (hexVal c1 * 16 + hexVal c2) = [jsLowerChar c1, jsLowerChar c2] :=
  hex_pair_spec_bounded c1 (isHexDigit_lt c1 h1) c2 (isHexDigit_lt c2 h2) h1 h2

set_option maxRecDepth 40000 in
theorem byteToHex_spec_bounded :
    ∀ b < 256, byteToHex b = [hexDigitChar (b / 16), hexDigitChar (b % 16)] ∧
      jsParseHexByte (hexDigitChar (b / 16)) (hexDigitChar (b % 16)) = b := by
  decide

theorem jsLowerChar_idem (n : Nat) : jsLowerChar (jsLowerChar n) = jsLowerChar n := by
  unfold jsLowerChar
  split_ifs <;> omega

theorem jsToLower_idem (s : JStr) : jsToLower (jsToLower s) = jsToLower s := by
  simp only [jsToLower, List.map_map]
  exact List.map_congr_left (fun c _ => jsLowerChar_idem c)

theorem isHexDigit_lower_bounded :
    ∀ c < 103, isHexDigit c = true → isHexDigit (jsLowerChar c) = true := by
  decide

theorem pairBytes_lt : ∀ (l : JStr), ∀ b ∈ pairBytes l, b < 256
  | [] => by simp [pairBytes]
  | [c] => by simp [pairBytes]
  | c1 :: c2 :: rest => by
    intro b hb
    rcases List.mem_cons.mp hb with h | h
    · subst h; exact toUint8_lt _
    · exact pairBytes_lt rest b h

theorem pairBytes_length : ∀ (l : JStr), (pairBytes l).length = l.length / 2
  | [] => rfl
  | [c] => by simp [pairBytes]
  | c1 :: c2 :: rest => by
    have := pairBytes_length rest
    simp only [pairBytes, List.length_cons]
    omega

/-- Parsing back a hex rendering recovers the bytes. -/
theorem pairBytes_flatten_byteToHex (bs : List Nat) (hlt : ∀ b ∈ bs, b < 256) :
    pairBytes ((bs.map byteToHex).flatten) = bs := by
  induction bs with
  | nil => rfl
  | cons b rest ih =>
    have hb := hlt b (List.mem_cons_self b rest)
    obtain ⟨hform, hparse⟩ := byteToHex_spec_bounded b hb
    simp only [List.map_cons, List.flatten_cons, hform]
    have hstep : pairBytes (hexDigitChar (b / 16) :: hexDigitChar (b % 16) ::
        (rest.map byteToHex).flatten) =
        jsParseHexByte (hexDigitChar (b / 16)) (hexDigitChar (b % 16)) ::
          pairBytes ((rest.map byteToHex).flatten) := rfl
    rw [List.cons_append, List.cons_append, List.nil_append, hstep, hparse,
      ih (fun x hx => hlt x (List.mem_cons_of_mem b hx))]

theorem flatten_byteToHex_length (bs : List Nat) (hlt : ∀ b ∈ bs, b < 256) :
    ((bs.map byteToHex).flatten).length = 2 * bs.length := by
  induction bs with
  | nil => rfl
  | cons b rest ih =>
    have hb := hlt b (List.mem_cons_self b rest)
    obtain ⟨hform, _⟩ := byteToHex_spec_bounded b hb
    simp only [List.map_cons, List.flatten_cons, List.length_append, hform,
      List.length_cons, List.length_nil, List.length_append]
    rw [ih (fun x hx => hlt x (List.mem_cons_of_mem b hx))]
    omega

/-- Hex-rendering a parsed well-formed hex string lower-cases it. -/
theorem flatten_byteToHex_pairBytes :
    ∀ (l : JStr), (∀ c ∈ l, isHexDigit c = true) → l.length % 2 = 0 →
      ((pairBytes l).map byteToHex).flatten = jsToLower l
  | [], _, _ => rfl
  | [c], _, hpar => by simp at hpar
  | c1 :: c2 :: rest, hhex, hpar => by
    have h1 := hhex c1 (List.mem_cons_self c1 _)
    have h2 := hhex c2 (List.mem_cons_of_mem c1 (List.mem_cons_self c2 _))
    obtain ⟨hparse, hform⟩ := hex_pair_spec c1 c2 h1 h2
    have hstep : pairBytes (c1 :: c2 :: rest) =
        jsParseHexByte c1 c2 :: pairBytes rest := rfl
    rw [hstep, List.map_cons, List.flatten_cons, hparse, hform]
    have hrest := flatten_byteToHex_pairBytes rest
      (fun x hx => hhex x (List.mem_cons_of_mem c1 (List.mem_cons_of_mem c2 hx)))
      (by simp only [List.length_cons] at hpar; omega)
    rw [hrest]
    rfl

/-! ## EVM converter round trip -/

theorem evmIsValid_spec (s : JStr) (h : evmIsValid s = true) :
    ∃ rest, s = 48 :: 120 :: rest ∧ rest.length = 40 ∧
      ∀ c ∈ rest, isHexDigit c = true := by
  match s, h with
  | 48 :: 120 :: rest, h => ?_
  case _ =>
    simp only [evmIsValid, Bool.and_eq_true, decide_eq_true_eq, List.all_eq_true] at h
    exact ⟨rest, rfl, h.1, h.2⟩

theorem jsToLower_0x (rest : JStr) :
    jsToLower (48 :: 120 :: rest) = 48 :: 120 :: jsToLower rest := rfl

/-- Round trip of the EVM converter on addresses matching
`/^0x[0-9a-fA-F]{40}$/`: `toBytes` zero-pads the 20 parsed bytes and
`fromBytes` returns the lower-cased address. -/
theorem evm_roundtrip_aux (s : JStr) (hv : evmIsValid s = true) :
    evmToBytes s = .ok (List.replicate 12 0 ++ pairBytes (strip0x (jsToLower s))) ∧
      evmFromBytes (List.replicate 12 0 ++ pairBytes (strip0x (jsToLower s))) =
        .ok (jsToLower s) := by
  obtain ⟨rest, hs, hlen, hhex⟩ := evmIsValid_spec s hv
  subst hs
  rw [jsToLower_0x]
  have hstrip : strip0x (48 :: 120 :: jsToLower rest) = jsToLower rest := rfl
  rw [hstrip]
  have hlow_len : (jsToLower rest).length = 40 := by
    simp [jsToLower, hlen]
  have hlow_hex : ∀ c ∈ jsToLower rest, isHexDigit c = true := by
    intro c hc
    obtain ⟨x, hx, hxc⟩ := List.mem_map.mp hc
    rw [← hxc]
    exact isHexDigit_lower_bounded x (isHexDigit_lt x (hhex x hx)) (hhex x hx)
  constructor
  · unfold evmToBytes
    rw [jsToLower_0x, hstrip, if_pos hlow_len]
  · unfold evmFromBytes
    have hpblen : (pairBytes (jsToLower rest)).length = 20 := by
      rw [pairBytes_length, hlow_len]
    rw [if_pos (by simp [hpblen])]
    have hdrop : (List.replicate 12 0 ++ pairBytes (jsToLower rest)).drop 12 =
        pairBytes (jsToLower rest) := rfl
    rw [hdrop, flatten_byteToHex_pairBytes (jsToLower rest) hlow_hex
      (by rw [hlow_len]), jsToLower_idem]

/-! ## Association-map lemmas (registry state) -/

theorem assocGet_nil [DecidableEq κ] (k' : κ) : assocGet k' ([] : List (κ × α)) = none :=
  rfl

theorem assocGet_cons [DecidableEq κ] (k' k₀ : κ) (v₀ : α) (rest : List (κ × α)) :
    assocGet k' ((k₀, v₀) :: rest) =
      if k₀ = k' then some v₀ else assocGet k' rest := by
  by_cases h : k₀ = k'
  · simp only [assocGet, List.find?, decide_eq_true h, if_pos h]
    rfl
  · simp only [assocGet, List.find?, decide_eq_false h, if_neg h]

theorem assocUpdate_cons_eq [DecidableEq κ] (k : κ) (v v₀ : α) (rest : List (κ × α)) :
    assocUpdate k v ((k, v₀) :: rest) = (k, v) :: rest := by
  simp [assocUpdate]

theorem assocUpdate_cons_ne [DecidableEq κ] (k k₀ : κ) (v v₀ : α)
    (rest : List (κ × α)) (h : k₀ ≠ k) :
    assocUpdate k v ((k₀, v₀) :: rest) = (k₀, v₀) :: assocUpdate k v rest := by
  simp [assocUpdate, h]

theorem assocGet_update_self [DecidableEq κ] (k : κ) (v : α) (l : List (κ × α)) :
    assocGet k (assocUpdate k v l) = some v := by
  induction l with
  | nil => simp [assocUpdate, assocGet_cons]
  | cons p rest ih =>
    obtain ⟨k₀, v₀⟩ := p
    by_cases h : k₀ = k
    · subst h
      rw [assocUpdate_cons_eq, assocGet_cons, if_pos rfl]
    · rw [assocUpdate_cons_ne _ _ _ _ _ h, assocGet_cons, if_neg h]
      exact ih

theorem assocGet_update_ne [DecidableEq κ] (k k' : κ) (v : α) (l : List (κ × α))
    (h : k' ≠ k) : assocGet k' (assocUpdate k v l) = assocGet k' l := by
  induction l with
  | nil =>
    simp only [assocUpdate]
    rw [assocGet_cons, if_neg (fun he => h he.symm), assocGet_nil]
  | cons p rest ih =>
    obtain ⟨k₀, v₀⟩ := p
    by_cases hk : k₀ = k
    · subst hk
      rw [assocUpdate_cons_eq, assocGet_cons, assocGet_cons,
        if_neg (fun he => h he.symm), if_neg (fun he => h he.symm)]
    · rw [assocUpdate_cons_ne _ _ _ _ _ hk, assocGet_cons, assocGet_cons, ih]

theorem mem_keys_assocUpdate [DecidableEq κ] (k x : κ) (v : α) (l : List (κ × α)) :
    x ∈ (assocUpdate k v l).map (·.1) ↔ x = k ∨ x ∈ l.map (·.1) := by
  induction l with
  | nil => simp [assocUpdate]
  | cons p rest ih =>
    obtain ⟨k₀, v₀⟩ := p
    by_cases hk : k₀ = k
    · subst hk
      rw [assocUpdate_cons_eq]
      simp only [List.map_cons, List.mem_cons]
      tauto
    · rw [assocUpdate_cons_ne _ _ _ _ _ hk]
      simp only [List.map_cons, List.mem_cons, ih]
      tauto

theorem keysNodup_assocUpdate [DecidableEq κ] (k : κ) (v : α) (l : List (κ × α))
    (h : (l.map (·.1)).Nodup) : ((assocUpdate k v l).map (·.1)).Nodup := by
  induction l with
  | nil => simp [assocUpdate]
  | cons p rest ih =>
    obtain ⟨k₀, v₀⟩ := p
    simp only [List.map_cons, List.nodup_cons] at h
    by_cases hk : k₀ = k
    · subst hk
      rw [assocUpdate_cons_eq]
      simp only [List.map_cons, List.nodup_cons]
      exact h
    · rw [assocUpdate_cons_ne _ _ _ _ _ hk]
      simp only [List.map_cons, List.nodup_cons, mem_keys_assocUpdate]
      exact ⟨fun hc => hc.elim (fun he => hk he) h.1, ih h.2⟩

theorem mem_assocUpdate [DecidableEq κ] {l : List (κ × α)}
    (hnd : (l.map (·.1)).Nodup) {k : κ} {v : α} {p : κ × α}
    (hp : p ∈ assocUpdate k v l) : p = (k, v) ∨ (p ∈ l ∧ p.1 ≠ k) := by
  induction l with
  | nil =>
    simp only [assocUpdate, List.mem_singleton] at hp
    exact Or.inl hp
  | cons q rest ih =>
    obtain ⟨k₀, v₀⟩ := q
    simp only [List.map_cons, List.nodup_cons] at hnd
    by_cases hk : k₀ = k
    · subst hk
      rw [assocUpdate_cons_eq] at hp
      rcases List.mem_cons.mp hp with h | h
      · exact Or.inl h
      · refine Or.inr ⟨List.mem_cons_of_mem _ h, fun hpk => hnd.1 ?_⟩
        rw [← hpk]
        exact List.mem_map.mpr ⟨p, h, rfl⟩
    · rw [assocUpdate_cons_ne _ _ _ _ _ hk] at hp
      rcases List.mem_cons.mp hp with h | h
      · exact Or.inr ⟨by rw [h]; exact List.mem_cons_self _ _, by rw [h]; exact hk⟩
      · rcases ih hnd.2 h with h1 | h2
        · exact Or.inl h1
        · exact Or.inr ⟨List.mem_cons_of_mem _ h2.1, h2.2⟩

/-! ## Reachable registry invariants -/

theorem seed_keysNodup : ((seedState.forwardMap.map (·.1)).Nodup) := by decide

theorem reachable_keysNodup {σ : RegistryState} (h : Reachable σ) :
    (σ.forwardMap.map (·.1)).Nodup := by
  induction h with
  | seed => exact seed_keysNodup
  | step info _ ih => exact keysNodup_assocUpdate _ _ _ ih

/-- In every reachable state, the forward map's key is the record's own
`slip44` (both the seed table and `registerChain` store at `info.slip44`). -/
theorem reachable_key_slip44 {σ : RegistryState} (h : Reachable σ) :
    ∀ p ∈ σ.forwardMap, p.2.slip44 = p.1 := by
  induction h with
  | seed => decide
  | step info hr ih =>
    intro p hp
    rcases mem_assocUpdate (reachable_keysNodup hr) hp with h1 | h2
    · rw [h1]
    · exact ih p h2.1

/-! ## Universal Address composition -/

theorem uaSlip44_slip44Bytes (s : Nat) (r : List Nat) :
    uaSlip44 (slip44Bytes s ++ r) = s % 2 ^ 32 := by
  show uaSlip44 (s / 2 ^ 24 % 256 :: s / 2 ^ 16 % 256 :: s / 2 ^ 8 % 256 ::
    s % 256 :: r) = s % 2 ^ 32
  simp only [uaSlip44, List.getD_cons_zero, List.getD_cons_succ]
  omega

theorem slip44Bytes_length (s : Nat) : (slip44Bytes s).length = 4 := rfl

theorem evmValid_cleaned_length (s : JStr) (hv : evmIsValid s = true) :
    (strip0x (jsToLower s)).length = 40 := by
  obtain ⟨rest, hs, hlen, _⟩ := evmIsValid_spec s hv
  subst hs
  rw [jsToLower_0x, show strip0x (48 :: 120 :: jsToLower rest) = jsToLower rest from rfl]
  simpa [jsToLower] using hlen

/-- `createUniversalAddress` followed by `decodeUniversalAddress` on an EVM
chain: the address round-trips lower-cased and the chain ID is the reverse
lookup of the SLIP-44 value. -/
theorem create_decode_evm (σ : RegistryState) (c : ChainId) (s : Nat) (addr : JStr)
    (hn : nativeToSlip44 σ c = some s) (ht : getChainType σ s = some .evm)
    (hs : s < 2 ^ 32) (hv : evmIsValid addr = true) :
    (createUniversalAddress σ c addr).bind (decodeUniversalAddress σ) =
      .ok ⟨s, jsToLower addr, slip44ToNative σ s⟩ := by
  obtain ⟨ht1, ht2⟩ := evm_roundtrip_aux addr hv
  have hclen : (pairBytes (strip0x (jsToLower addr))).length = 20 := by
    rw [pairBytes_length, evmValid_cleaned_length addr hv]
  set X : List Nat := List.replicate 12 0 ++ pairBytes (strip0x (jsToLower addr)) with hX
  have hXlen : X.length = 32 := by
    rw [hX, List.length_append, List.length_replicate, hclen]
  have hcu : createUniversalAddress σ c addr = encodeUniversalAddress σ s addr := by
    unfold createUniversalAddress
    rw [hn]
  have henc : encodeUniversalAddress σ s addr = .ok (slip44Bytes s ++ X) := by
    unfold encodeUniversalAddress
    rw [ht, ht1]
    rfl
  rw [hcu, henc]
  show decodeUniversalAddress σ (slip44Bytes s ++ X) =
    .ok ⟨s, jsToLower addr, slip44ToNative σ s⟩
  have hualen : (slip44Bytes s ++ X).length = 36 := by
    rw [List.length_append, slip44Bytes_length, hXlen]
  have hsval : uaSlip44 (slip44Bytes s ++ X) = s := by
    rw [uaSlip44_slip44Bytes, Nat.mod_eq_of_lt hs]
  have hdrop : ((slip44Bytes s ++ X).drop 4).take 32 = X := by
    rw [show (slip44Bytes s ++ X).drop 4 = X from rfl, ← hXlen, List.take_length]
  unfold decodeUniversalAddress
  rw [if_pos hualen, hsval, ht, hdrop, ht2]
  rfl

/-- `createUniversalAddress` followed by `decodeUniversalAddress` on a Tron
chain, for valid addresses with the mainnet prefix byte. -/
theorem create_decode_tron (σ : RegistryState) (c : ChainId) (s : Nat) (addr : JStr)
    (d : List Nat) (hn : nativeToSlip44 σ c = some s)
    (ht : getChainType σ s = some .tron) (hs : s < 2 ^ 32)
    (hv : tronIsValid addr = true) (hd : base58Decode addr = .ok d)
    (hpre : d.head? = some 65) :
    (createUniversalAddress σ c addr).bind (decodeUniversalAddress σ) =
      .ok ⟨s, addr, slip44ToNative σ s⟩ := by
  obtain ⟨ht1, ht2⟩ := tron_roundtrip_aux addr d hv hd hpre
  have hdlen : d.length = 25 := by
    obtain ⟨_, d', hd', hlen', _⟩ := tronIsValid_spec addr hv
    rw [hd] at hd'
    have hdd : d = d' := Except.ok.inj hd'
    rw [hdd]
    exact hlen'
  have hclen : ((d.drop 1).take 20).length = 20 := by
    simp [hdlen]
  set X : List Nat := List.replicate 12 0 ++ (d.drop 1).take 20 with hX
  have hXlen : X.length = 32 := by
    rw [hX, List.length_append, List.length_replicate, hclen]
  have hcu : createUniversalAddress σ c addr = encodeUniversalAddress σ s addr := by
    unfold createUniversalAddress
    rw [hn]
  have henc : encodeUniversalAddress σ s addr = .ok (slip44Bytes s ++ X) := by
    unfold encodeUniversalAddress
    rw [ht, ht1]
    rfl
  rw [hcu, henc]
  show decodeUniversalAddress σ (slip44Bytes s ++ X) =
    .ok ⟨s, addr, slip44ToNative σ s⟩
  have hualen : (slip44Bytes s ++ X).length = 36 := by
    rw [List.length_append, slip44Bytes_length, hXlen]
  have hsval : uaSlip44 (slip44Bytes s ++ X) = s := by
    rw [uaSlip44_slip44Bytes, Nat.mod_eq_of_lt hs]
  have hdrop : ((slip44Bytes s ++ X).drop 4).take 32 = X := by
    rw [show (slip44Bytes s ++ X).drop 4 = X from rfl, ← hXlen, List.take_length]
  unfold decodeUniversalAddress
  rw [if_pos hualen, hsval, ht, hdrop, ht2]
  rfl

/-! ## Concrete inputs used by the claims -/

/-- The Fantom registration of the `registerChain` doc example
(`nativeChainId 250`, reusing Ethereum's SLIP-44 60). -/
def fantomInfo : ChainInfo :=
  ⟨.num 250, 60, strChars "Fantom Opera", .evm, strChars "FTM", none⟩

/-- A registration whose stringified native ID collides with Ethereum's
under a different SLIP-44 key. -/
def conflictInfo : ChainInfo :=
  ⟨.num 1, 42, strChars "Conflict Chain", .evm, strChars "CON", none⟩

/-- A registration with SLIP-44 0 (falsy in JavaScript). -/
def zeroSlipInfo : ChainInfo :=
  ⟨.num 777, 0, strChars "Zero Chain", .evm, strChars "ZRO", none⟩

/-- A registration with a SLIP-44 of 2^32 + 60, beyond the 4-byte field. -/
def bigSlipInfo : ChainInfo :=
  ⟨.num 999, 4294967356, strChars "Big Chain", .evm, strChars "BIG", none⟩

/-- A 34-character base-58 string that passes `tronConverter.isValid`
(correct mock checksum) but decodes to prefix byte `0x40`, not `0x41`. -/
def badTron : JStr := strChars "T9yD14Nj9j7xAB4dbGeiX9h8unkKAPpuZR"

/-- A valid Tron address under the mock checksum whose decoded prefix byte
is the mainnet `0x41`. -/
def goodTron : JStr := strChars "T9yD14Nj9j7xAB4dbGeiX9h8unkKEXHXEQ"

/-- The 25 decoded bytes of `goodTron`: prefix `0x41`, a zero payload, and
the 4-byte mock checksum. -/
def goodTronDecoded : List Nat :=
  [65, 0, 0, 0, 0, 0, 0, 0, 0, 0, 0, 0, 0, 0, 0, 0, 0, 0, 0, 0, 0, 50, 214, 85, 193]

/-- The EVM address of the spec's concrete scenarios. -/
def exampleEvmAddr : JStr := strChars "0x742d35Cc6634C0532925a3b844Bc9e7595f0bEb0"

/-- A 72-character hex-length string with non-hex characters (`z` = 122)
after a valid SLIP-44 prefix `0000003c`. -/
def badHexInput : JStr := strChars "0x0000003c" ++ List.replicate 64 122

/-! ## Claims -/

/-- C7: starting from the seed registry, after
`registerChain({nativeChainId: 250, slip44: 60, ...})`, `nativeToSlip44(250)`
returns 60, `slip44ToNative(60)` returns 250, and the prior Ethereum reverse
entry is unaffected: `nativeToSlip44(1)` still returns 60. -/
theorem c7_register_fantom :
    nativeToSlip44 (registerChain seedState fantomInfo) (.num 250) = some 60 ∧
      slip44ToNative (registerChain seedState fantomInfo) 60 = some (.num 250) ∧
      nativeToSlip44 (registerChain seedState fantomInfo) (.num 1) = some 60 := by
  decide

/-- C6 counterexample: after registering a chain with SLIP-44 0, the reverse
lookup finds `0`, `getChainInfoBySlip44 0` finds the record, yet
`getChainInfoByNative` returns not-found (`slip44 ? … : null` treats 0 as
falsy), so it is not the composition of the two lookups. -/
theorem c6_counterexample :
    nativeToSlip44 (registerChain seedState zeroSlipInfo) (.num 777) = some 0 ∧
      getChainInfoBySlip44 (registerChain seedState zeroSlipInfo) 0 =
        some zeroSlipInfo ∧
      getChainInfoByNative (registerChain seedState zeroSlipInfo) (.num 777) =
        none := by
  decide

/-- C6 amended: `getChainInfoByNative` is the composition of `nativeToSlip44`
and `getChainInfoBySlip44` whenever the looked-up SLIP-44 is nonzero, and
returns not-found when the reverse lookup fails; a looked-up SLIP-44 of 0 is
mapped to not-found by the truthiness test. -/
theorem c6_compose_amended : ∀ (σ : RegistryState) (c : ChainId),
    (∀ s, nativeToSlip44 σ c = some s → s ≠ 0 →
      getChainInfoByNative σ c = getChainInfoBySlip44 σ s) ∧
      (nativeToSlip44 σ c = none → getChainInfoByNative σ c = none) := by
  intro σ c
  constructor
  · intro s hs hz
    unfold getChainInfoByNative
    rw [hs]
    show (if s = 0 then none else getChainInfoBySlip44 σ s) = getChainInfoBySlip44 σ s
    rw [if_neg hz]
  · intro h
    unfold getChainInfoByNative
    rw [h]

/-- C6 witness: the composition at Ethereum's chain ID in the seed state. -/
theorem c6_witness :
    getChainInfoByNative seedState (.num 1) = getChainInfoBySlip44 seedState 60 :=
  (c6_compose_amended seedState (.num 1)).1 60 (by decide) (by decide)

/-- C2 counterexample: the state reached by registering
`{nativeChainId: 1, slip44: 42}` still holds the Ethereum record under
forward key 60, but the reverse lookup of its native chain ID now yields 42,
not 60 — the invariant fails on a reachable state. -/
theorem c2_counterexample :
    Reachable (registerChain seedState conflictInfo) ∧
      (60, ethereumSeedInfo) ∈ (registerChain seedState conflictInfo).forwardMap ∧
      nativeToSlip44 (registerChain seedState conflictInfo)
        ethereumSeedInfo.nativeChainId = some 42 ∧
      nativeToSlip44 (registerChain seedState conflictInfo)
        ethereumSeedInfo.nativeChainId ≠ some 60 :=
  ⟨Reachable.step conflictInfo Reachable.seed, by decide, by decide, by decide⟩

/-- Registry states reachable from the seed when every registration's
stringified native chain ID is fresh relative to the records held at other
forward keys (the discipline under which the bidirectional invariant is
preserved). -/
inductive ReachableDistinct : RegistryState → Prop where
  | seed : ReachableDistinct seedState
  | step {σ : RegistryState} (info : ChainInfo) :
      ReachableDistinct σ →
      (∀ p ∈ σ.forwardMap, p.1 ≠ info.slip44 →
        chainIdKey p.2.nativeChainId ≠ chainIdKey info.nativeChainId) →
      ReachableDistinct (registerChain σ info)

/-- `ReachableDistinct` states are reachable. -/
theorem reachableDistinct_reachable {σ : RegistryState} (h : ReachableDistinct σ) :
    Reachable σ := by
  induction h with
  | seed => exact Reachable.seed
  | step info _ _ ih => exact Reachable.step info ih

/-- C2 amended: in every state reachable from the seed table by
registrations whose stringified native chain ID differs from that of every
record held at a different forward key, each forward entry's native chain ID
reverse-resolves to its own SLIP-44 key. Unrestricted registration breaks
the invariant (see the counterexample). -/
theorem c2_invariant_amended : ∀ (σ : RegistryState), ReachableDistinct σ →
    ∀ p ∈ σ.forwardMap, nativeToSlip44 σ p.2.nativeChainId = some p.1 := by
  intro σ h
  induction h with
  | seed => decide
  | @step σ' info hr hfresh ih =>
    intro p hp
    rcases mem_assocUpdate (reachable_keysNodup (reachableDistinct_reachable hr))
        hp with h1 | h2
    · rw [h1]
      show assocGet (chainIdKey info.nativeChainId)
        (assocUpdate (chainIdKey info.nativeChainId) info.slip44 σ'.reverseMap) =
          some info.slip44
      exact assocGet_update_self _ _ _
    · show assocGet (chainIdKey p.2.nativeChainId)
        (assocUpdate (chainIdKey info.nativeChainId) info.slip44 σ'.reverseMap) =
          some p.1
      rw [assocGet_update_ne _ _ _ _ (hfresh p h2.1 h2.2)]
      exact ih p h2.1

/-- C2 witness: the invariant instantiated at the seed state's Ethereum
entry. -/
theorem c2_witness :
    nativeToSlip44 seedState ethereumSeedInfo.nativeChainId = some 60 :=
  c2_invariant_amended seedState ReachableDistinct.seed (60, ethereumSeedInfo)
    (by decide)

/-- C5 counterexample: `getAllSupportedChains` on the seed registry returns
the records in ascending SLIP-44 key order, which differs from the seed
table's insertion order (Solana 501 was inserted fifth but enumerates
third). -/
theorem c5_counterexample :
    (getAllSupportedChains seedState).map (·.slip44) =
      [60, 195, 501, 714, 966, 9000, 1000010, 1000324, 1008453, 1042161] ∧
      (getAllSupportedChains seedState).map (·.slip44) ≠
        (seedState.forwardMap.map (·.2)).map (·.slip44) := by
  decide

/-- C5 amended: in every reachable state whose forward keys are below
2^32 − 1 (array-index keys), `getAllSupportedChains` returns exactly the
live forward map's records (a permutation of them) in ascending SLIP-44
order — JavaScript integer-key enumeration order, not insertion order. -/
theorem c5_sorted_amended : ∀ (σ : RegistryState), Reachable σ →
    (∀ p ∈ σ.forwardMap, p.1 < 4294967295) →
    List.Sorted (· ≤ ·) ((getAllSupportedChains σ).map (·.slip44)) ∧
      List.Perm (getAllSupportedChains σ) (σ.forwardMap.map (·.2)) := by
  intro σ hr hkeys
  have hfilter1 : σ.forwardMap.filter (fun p => decide (p.1 < 4294967295)) =
      σ.forwardMap :=
    List.filter_eq_self.mpr (fun p hp => decide_eq_true (hkeys p hp))
  have hfilter2 : σ.forwardMap.filter (fun p => !decide (p.1 < 4294967295)) = [] :=
    List.filter_eq_nil_iff.mpr (fun p hp => by simp [hkeys p hp])
  unfold getAllSupportedChains jsObjectEntries
  rw [hfilter1, hfilter2, List.append_nil]
  have hperm := List.perm_insertionSort entryLE σ.forwardMap
  constructor
  · have hkey : ∀ p ∈ List.insertionSort entryLE σ.forwardMap, p.2.slip44 = p.1 :=
      fun p hp => reachable_key_slip44 hr p (hperm.subset hp)
    rw [List.map_map]
    have hmapeq : (List.insertionSort entryLE σ.forwardMap).map
        ((fun x : ChainInfo => x.slip44) ∘ (fun p : Nat × ChainInfo => p.2)) =
        (List.insertionSort entryLE σ.forwardMap).map (·.1) :=
      List.map_congr_left (fun p hp => hkey p hp)
    rw [hmapeq]
    exact List.pairwise_map.mpr (List.sorted_insertionSort entryLE σ.forwardMap)
  · exact hperm.map (·.2)

/-- C5 witness: the amended statement at the seed state. -/
theorem c5_witness :
    List.Sorted (· ≤ ·) ((getAllSupportedChains seedState).map (·.slip44)) ∧
      List.Perm (getAllSupportedChains seedState)
        (seedState.forwardMap.map (·.2)) :=
  c5_sorted_amended seedState Reachable.seed (by decide)

/-- C4 counterexample: forty `z` characters (no `0x` prefix, not hex) do not
match `/^0x[0-9a-fA-F]{40}$/`, yet `evmConverter.toBytes` succeeds and
returns 32 zero bytes — it validates only the cleaned length, not the
syntax. -/
theorem c4_counterexample :
    evmIsValid (List.replicate 40 122) = false ∧
      evmToBytes (List.replicate 40 122) = .ok (List.replicate 32 0) := by
  decide

/-- C4 amended: `evmConverter.toBytes` fails with `InvalidFormat` exactly
when the input, after lower-casing and stripping one `0x`, does not have 40
characters; hex syntax is not checked (unparseable pairs coerce to byte 0).
On success it returns 32 bytes: 12 zero bytes then the 20 parsed bytes. -/
theorem c4_toBytes_length_only : ∀ s : JStr,
    ((strip0x (jsToLower s)).length ≠ 40 → evmToBytes s = .error .invalidFormat) ∧
      ((strip0x (jsToLower s)).length = 40 →
        evmToBytes s = .ok (List.replicate 12 0 ++ pairBytes (strip0x (jsToLower s))) ∧
          (List.replicate 12 0 ++ pairBytes (strip0x (jsToLower s))).length = 32 ∧
          (List.replicate 12 0 ++ pairBytes (strip0x (jsToLower s))).take 12 =
            List.replicate 12 0) := by
  intro s
  constructor
  · intro h
    unfold evmToBytes
    rw [if_neg h]
  · intro h
    refine ⟨?_, ?_, ?_⟩
    · unfold evmToBytes
      rw [if_pos h]
    · rw [List.length_append, List.length_replicate, pairBytes_length, h]
    · rw [List.take_append_of_le_length (by rw [List.length_replicate]),
        List.take_replicate]
      rfl

/-- C4 witness: the amended statement evaluated on the all-`z` input, which
the original claim says must be rejected. -/
theorem c4_witness :
    evmToBytes (List.replicate 40 122) =
      .ok (List.replicate 12 0 ++ pairBytes (strip0x (jsToLower
        (List.replicate 40 122)))) :=
  ((c4_toBytes_length_only (List.replicate 40 122)).2 (by decide)).1

/-- C10: `hexToBytes` rejects inputs only by length — every string whose
prefix-stripped length is 72 parses to 36 bytes without error, hex or not —
and consequently `isValidUniversalAddress` accepts a 72-character string
containing 64 `z` characters. -/
theorem c10_hexToBytes_length_only :
    (∀ s : JStr, (strip0x s).length = 72 →
      ∃ bs, hexToBytes s = .ok bs ∧ bs.length = 36) ∧
      isValidUniversalAddress seedState (.hex badHexInput) = true ∧
      ¬ (∀ c ∈ strip0x badHexInput, isHexDigit c = true) := by
  refine ⟨?_, by decide, by decide⟩
  intro s h
  refine ⟨pairBytes (strip0x s), ?_, ?_⟩
  · unfold hexToBytes
    rw [if_pos h]
  · rw [pairBytes_length, h]

/-- C10 witness: the universally quantified part instantiated at the
non-hex 72-character input. -/
theorem c10_witness :
    ∃ bs, hexToBytes badHexInput = .ok bs ∧ bs.length = 36 :=
  c10_hexToBytes_length_only.1 badHexInput (by decide)

/-- C8: hex/bytes round trip. Every 36-byte sequence hex-renders with `0x`
and 72 lowercase hex characters and parses back to itself; every well-formed
72-hex-character string (optional `0x`) parses to 36 bytes that re-render as
the string lower-cased with a `0x` prefix. -/
theorem c8_hex_roundtrip :
    (∀ bs : List Nat, bs.length = 36 → (∀ b ∈ bs, b < 256) →
      bytesToHex bs = .ok (48 :: 120 :: (bs.map byteToHex).flatten) ∧
        hexToBytes (48 :: 120 :: (bs.map byteToHex).flatten) = .ok bs) ∧
      (∀ h : JStr, (strip0x h).length = 72 →
        (∀ c ∈ strip0x h, isHexDigit c = true) →
        hexToBytes h = .ok (pairBytes (strip0x h)) ∧
          bytesToHex (pairBytes (strip0x h)) =
            .ok (48 :: 120 :: jsToLower (strip0x h))) := by
  constructor
  · intro bs hlen hlt
    constructor
    · unfold bytesToHex
      rw [if_pos hlen]
    · unfold hexToBytes
      rw [show strip0x (48 :: 120 :: (bs.map byteToHex).flatten) =
        (bs.map byteToHex).flatten from rfl]
      rw [if_pos (by rw [flatten_byteToHex_length bs hlt, hlen]),
        pairBytes_flatten_byteToHex bs hlt]
  · intro h hlen hhex
    constructor
    · unfold hexToBytes
      rw [if_pos hlen]
    · unfold bytesToHex
      rw [if_pos (by rw [pairBytes_length, hlen]),
        flatten_byteToHex_pairBytes (strip0x h) hhex (by rw [hlen])]

/-- C8 witness: the byte-side round trip at the zero Universal Address. -/
theorem c8_witness :
    bytesToHex (List.replicate 36 0) =
      .ok (48 :: 120 :: ((List.replicate 36 0).map byteToHex).flatten) ∧
      hexToBytes (48 :: 120 :: ((List.replicate 36 0).map byteToHex).flatten) =
        .ok (List.replicate 36 0) :=
  c8_hex_roundtrip.1 (List.replicate 36 0) (by decide) (by decide)

/-- C3 counterexample: `badTron` passes `tronConverter.isValid` (valid
syntax, 25 decoded bytes, correct checksum — its decoded prefix byte is
`0x40`), but `fromBytes(toBytes(badTron))` re-encodes with prefix `0x41` and
returns a different address. -/
theorem c3_counterexample :
    tronIsValid badTron = true ∧
      (tronToBytes badTron).bind tronFromBytes ≠ .ok badTron := by
  decide

/-- C3 amended: for every address accepted by `tronConverter.isValid` whose
Base58 decoding additionally carries the mainnet prefix byte `0x41`,
`fromBytes(toBytes(a))` returns `a`; `isValid` alone does not constrain the
prefix byte, and the round trip can fail without it (see the
counterexample). -/
theorem c3_tron_roundtrip_amended : ∀ (a : JStr) (d : List Nat),
    tronIsValid a = true → base58Decode a = .ok d → d.head? = some 65 →
    (tronToBytes a).bind tronFromBytes = .ok a := by
  intro a d hv hd hpre
  obtain ⟨h1, h2⟩ := tron_roundtrip_aux a d hv hd hpre
  rw [h1]
  exact h2

/-- C3 witness: the round trip at a valid mock-checksum address with prefix
byte `0x41`. -/
theorem c3_witness : (tronToBytes goodTron).bind tronFromBytes = .ok goodTron :=
  c3_tron_roundtrip_amended goodTron goodTronDecoded (by decide) (by decide)
    (by decide)

/-- Registry facts holding for every seed entry: reverse lookup of the
record's native ID gives its key, the chain type and forward lookup agree
with the record, the key is the record's SLIP-44, and it fits in 32 bits. -/
theorem seed_registry_facts : ∀ p ∈ seedState.forwardMap,
    nativeToSlip44 seedState p.2.nativeChainId = some p.1 ∧
      getChainType seedState p.1 = some p.2.chainType ∧
      slip44ToNative seedState p.1 = some p.2.nativeChainId ∧
      p.2.slip44 = p.1 ∧ p.1 < 2 ^ 32 := by
  decide

/-- C1 counterexample: for the registered Tron chain (ID 195) and the valid
native address `badTron`,
`decodeUniversalAddress(createUniversalAddress(195, badTron)).nativeAddress`
is not `badTron` (the codec re-encodes with prefix byte `0x41`). -/
theorem c1_counterexample :
    (195, tronSeedInfo) ∈ seedState.forwardMap ∧
      tronIsValid badTron = true ∧
      ((createUniversalAddress seedState (.num 195) badTron).bind
        (decodeUniversalAddress seedState)).map (·.nativeAddress) ≠
        .ok badTron := by
  decide

/-- C1 amended: for every chain of the seed registry with an implemented
converter, `decodeUniversalAddress ∘ createUniversalAddress` returns the
chain's ID and the canonical address: lower-cased for EVM chains, and the
address itself for the Tron chain provided its decoded prefix byte is the
mainnet `0x41` (without which the round trip can fail, see the
counterexample). -/
theorem c1_universal_roundtrip_amended : ∀ (k : Nat) (info : ChainInfo) (addr : JStr),
    (k, info) ∈ seedState.forwardMap →
    (info.chainType = .evm → evmIsValid addr = true →
      (createUniversalAddress seedState info.nativeChainId addr).bind
        (decodeUniversalAddress seedState) =
        .ok ⟨info.slip44, jsToLower addr, some info.nativeChainId⟩) ∧
      (info.chainType = .tron → ∀ d : List Nat, tronIsValid addr = true →
        base58Decode addr = .ok d → d.head? = some 65 →
        (createUniversalAddress seedState info.nativeChainId addr).bind
          (decodeUniversalAddress seedState) =
          .ok ⟨info.slip44, addr, some info.nativeChainId⟩) := by
  intro k info addr hmem
  obtain ⟨h1, h2, h3, h4, h5⟩ := seed_registry_facts (k, info) hmem
  constructor
  · intro hct hv
    have hres := create_decode_evm seedState info.nativeChainId k addr h1
      (by rw [h2, hct]) h5 hv
    rw [h3] at hres
    rw [h4]
    exact hres
  · intro hct d hv hd hpre
    have hres := create_decode_tron seedState info.nativeChainId k addr d h1
      (by rw [h2, hct]) h5 hv hd hpre
    rw [h3] at hres
    rw [h4]
    exact hres

/-- C1 witness: the Universal Address round trip for Ethereum and a concrete
mixed-case EVM address. -/
theorem c1_witness :
    (createUniversalAddress seedState (ChainId.num 1) exampleEvmAddr).bind
      (decodeUniversalAddress seedState) =
      .ok ⟨60, jsToLower exampleEvmAddr, some (ChainId.num 1)⟩ :=
  (c1_universal_roundtrip_amended 60 ethereumSeedInfo exampleEvmAddr
    (by decide)).1 (by decide) (by decide)

/-! ## C9: SLIP-44 truncation at 2^32 -/

theorem exceptMap_eq_ok {ε α β : Type} {f : α → β} {x : Except ε α} {y : β}
    (h : x.map f = .ok y) : ∃ a, x = .ok a ∧ f a = y := by
  cases x with
  | error e => simp [Except.map] at h
  | ok a =>
    refine ⟨a, rfl, ?_⟩
    simpa [Except.map] using h

/-- A successful decode's `slip44` field is the 32-bit field read from the
first four bytes. -/
theorem decode_ok_slip44 (σ : RegistryState) (bs : List Nat) (dec : DecodedUA)
    (h : decodeUniversalAddress σ bs = .ok dec) : dec.slip44 = uaSlip44 bs := by
  unfold decodeUniversalAddress at h
  by_cases hlen : bs.length = 36
  · rw [if_pos hlen] at h
    cases hct : getChainType σ (uaSlip44 bs) with
    | none => rw [hct] at h; cases h
    | some ct =>
      rw [hct] at h
      cases ct with
      | evm =>
        obtain ⟨na, _, hfa⟩ := exceptMap_eq_ok h
        rw [← hfa]
      | tron =>
        obtain ⟨na, _, hfa⟩ := exceptMap_eq_ok h
        rw [← hfa]
      | solana => cases h
      | cosmos => cases h
  · rw [if_neg hlen] at h
    cases h

/-- A successful encode writes the 4 SLIP-44 bytes before the address
payload. -/
theorem encode_ok_shape (σ : RegistryState) (s : Nat) (addr : JStr) (ua : List Nat)
    (h : encodeUniversalAddress σ s addr = .ok ua) :
    ∃ ab, ua = slip44Bytes s ++ ab := by
  unfold encodeUniversalAddress at h
  cases hct : getChainType σ s with
  | none => rw [hct] at h; cases h
  | some ct =>
    rw [hct] at h
    cases ct with
    | evm =>
      obtain ⟨ab, _, hfa⟩ := exceptMap_eq_ok h
      exact ⟨ab, hfa.symm⟩
    | tron =>
      obtain ⟨ab, _, hfa⟩ := exceptMap_eq_ok h
      exact ⟨ab, hfa.symm⟩
    | solana => cases h
    | cosmos => cases h

/-- C9: `encodeUniversalAddress` performs no range check and writes
`slip44 mod 2^32` into the first four bytes: whenever an encode and a
subsequent decode both succeed, the decoded `slip44` is the original value
mod 2^32 — equal to it below 2^32 and a different value from 2^32 on; and
encoding a registered SLIP-44 of 2^32 + 60 succeeds silently. -/
theorem c9_slip44_truncation :
    (∀ (σ σ' : RegistryState) (s : Nat) (addr : JStr) (ua : List Nat)
        (dec : DecodedUA),
      encodeUniversalAddress σ s addr = .ok ua →
      decodeUniversalAddress σ' ua = .ok dec →
      dec.slip44 = s % 2 ^ 32 ∧ (s < 2 ^ 32 → dec.slip44 = s) ∧
        (2 ^ 32 ≤ s → dec.slip44 ≠ s)) ∧
      encodeUniversalAddress (registerChain seedState bigSlipInfo) 4294967356
        exampleEvmAddr =
        .ok (slip44Bytes 4294967356 ++
          (List.replicate 12 0 ++ pairBytes (strip0x (jsToLower exampleEvmAddr)))) := by
  constructor
  · intro σ σ' s addr ua dec henc hdec
    obtain ⟨ab, hua⟩ := encode_ok_shape σ s addr ua henc
    have h1 : dec.slip44 = s % 2 ^ 32 := by
      rw [decode_ok_slip44 σ' ua dec hdec, hua, uaSlip44_slip44Bytes]
    refine ⟨h1, fun hs => by rw [h1, Nat.mod_eq_of_lt hs], fun hs => by rw [h1]; omega⟩
  · decide

/-- The 36 bytes produced by encoding SLIP-44 2^32 + 60 with the example
EVM address. -/
def bigSlipUA : List Nat :=
  slip44Bytes 4294967356 ++
    (List.replicate 12 0 ++ pairBytes (strip0x (jsToLower exampleEvmAddr)))

/-- The record decoded from `bigSlipUA`: SLIP-44 collapses to 60 and the
reverse lookup finds Ethereum. -/
def bigSlipDecoded : DecodedUA :=
  ⟨60, jsToLower exampleEvmAddr, some (ChainId.num 1)⟩

/-- C9 witness: the truncation statement at SLIP-44 2^32 + 60; the decoded
field is 60, a different value. -/
theorem c9_witness :
    bigSlipDecoded.slip44 = 4294967356 % 2 ^ 32 ∧
      bigSlipDecoded.slip44 ≠ 4294967356 :=
  ⟨(c9_slip44_truncation.1 (registerChain seedState bigSlipInfo)
      (registerChain seedState bigSlipInfo) 4294967356 exampleEvmAddr bigSlipUA
      bigSlipDecoded (by decide) (by decide)).1,
   (c9_slip44_truncation.1 (registerChain seedState bigSlipInfo)
      (registerChain seedState bigSlipInfo) 4294967356 exampleEvmAddr bigSlipUA
      bigSlipDecoded (by decide) (by decide)).2.2 (by norm_num)⟩

end ChainUtils
